import Mathlib

/-!
# Elastic APM hook for go-redis v8 (`module/apmgoredisv8/hook.go`)

A shallow embedding of the four `redis.Hook` callbacks of `goRedisApmHook`, of
`getCmdName`, and of the context helpers `withSpan` / `spanFromContext`.

Modelling conventions.

* A Go `string` is a Lean `String`, read as its sequence of code points (names
  that are not valid UTF-8 are outside the model).
* `strings.ToUpper` and `unicode.ToUpper` are standard-library code.  Their
  ASCII behaviour is written out; the Unicode case table consulted for code
  points above `unicode.MaxASCII` is the parameter `tbl`.
* `redis.Cmder` is an interface; the hook only ever calls `Name()` on it, so a
  command is a record holding the name it reports.  Nil interface values are
  excluded by the types (`Cmder`, `Context`).
* `*apm.Span` is a pointer: `none` is the nil pointer, `some id` points at the
  span with identity `id`.
* `context.Context` is the immutable chain built by `context.WithValue`.
* The APM agent is external.  `apm.StartSpan` is the parameter `Tracer`; every
  call the hook makes to the agent (`apm.StartSpan`, `(*apm.Span).End`) is
  appended to an explicit log of `Event`s, which is threaded through the hooks.
-/

namespace apmgoredisv8

/-! ## Strings -/

/-- Go `unicode.ToUpper`: ASCII letters are shifted by `'a' - 'A'`, other ASCII
code points are returned unchanged, and code points above `unicode.MaxASCII`
are looked up in the Unicode case table `tbl`. -/
def unicodeToUpper (tbl : Char → Char) (r : Char) : Char :=
  if r.toNat ≤ 127 then
    if 97 ≤ r.toNat ∧ r.toNat ≤ 122 then Char.ofNat (r.toNat - 32) else r
  else tbl r

/-- Go `strings.ToUpper`: the string with every code point mapped by
`unicode.ToUpper`. -/
def ToUpper (tbl : Char → Char) (s : String) : String :=
  String.mk (s.data.map (unicodeToUpper tbl))

/-- The code point `r` is an ASCII lower-case letter (`'a' <= r && r <= 'z'`). -/
def isAsciiLower (r : Char) : Prop := 97 ≤ r.toNat ∧ r.toNat ≤ 122

/-! ## Commands -/

/-- The part of `redis.Cmder` the hook uses: the result of `cmd.Name()`. -/
structure Cmder where
  Name : String
  deriving DecidableEq, Repr

/-- Go `getCmdName` (hook.go, lines 77-83). -/
def getCmdName (tbl : Char → Char) (cmd : Cmder) : String :=
  let cmdName := ToUpper tbl cmd.Name
  if cmdName = "" then "(empty command)" else cmdName

/-- The loop of `BeforeProcessPipeline` (hook.go, lines 57-63): `i` is the
index of the head of `cmds` in the ranged slice, `cmdNameBuf` the contents of
the `bytes.Buffer` so far; the result is the buffer after the loop. -/
def cmdNameLoop (tbl : Char → Char) : Nat → List Cmder → String → String
  | _, [], cmdNameBuf => cmdNameBuf
  | i, cmd :: rest, cmdNameBuf =>
    let cmdNameBuf := if i ≠ 0 then cmdNameBuf ++ ", " else cmdNameBuf
    cmdNameLoop tbl (i + 1) rest (cmdNameBuf ++ getCmdName tbl cmd)

/-- The span name computed by `BeforeProcessPipeline`: `cmdNameBuf.String()`
after the loop has run over `cmds` from an empty buffer. -/
def pipelineSpanName (tbl : Char → Char) (cmds : List Cmder) : String :=
  cmdNameLoop tbl 0 cmds ""

/-- The joined label as the specification words it: the canonical labels of the
commands, in their original order, joined with the separator `", "`. -/
def joinedLabelSpec (tbl : Char → Char) (cmds : List Cmder) : String :=
  ", ".intercalate (cmds.map (getCmdName tbl))

/-! ## Spans, contexts and the APM agent -/

/-- Go `*apm.Span`: `none` is the nil pointer, `some id` a pointer to the span
with identity `id`. -/
abbrev Span := Option Nat

/-- Context keys (Go `interface{}` values compared with `==`): the value of the
hook's unexported type `goRedisApmSpanKey`, or any other key. -/
inductive Key where
  | goRedisApmSpanKey
  | foreign (n : Nat)
  deriving DecidableEq, Repr

/-- Go `var key = goRedisApmSpanKey{}` (hook.go, line 87). -/
def key : Key := Key.goRedisApmSpanKey

/-- Dynamically typed values stored in a context: a `*apm.Span` (possibly the
nil pointer) or a value of some other type. -/
inductive Any where
  | span (s : Span)
  | foreign (n : Nat)
  deriving DecidableEq, Repr

/-- Go `context.Context`: the background context, or a `valueCtx` made by
`context.WithValue(parent, key, val)`. -/
inductive Context where
  | background
  | valueCtx (parent : Context) (key : Key) (val : Any)
  deriving DecidableEq, Repr

/-- Go `ctx.Value(key)`: the value of the nearest enclosing `valueCtx` whose key
equals `k`; `none` is the nil interface returned when there is none. -/
def Context.Value : Context → Key → Option Any
  | Context.background, _ => none
  | Context.valueCtx parent k' val, k => if k' = k then some val else parent.Value k

/-- Go `withSpan` (hook.go, lines 89-91). -/
def withSpan (ctx : Context) (span : Span) : Context :=
  Context.valueCtx ctx key (Any.span span)

/-- Go `spanFromContext` (hook.go, lines 93-96): the comma-ok type assertion
`ctx.Value(key).(*apm.Span)` yields the stored pointer when the value is a
`*apm.Span` and the nil pointer otherwise. -/
def spanFromContext (ctx : Context) : Span :=
  match ctx.Value key with
  | some (Any.span span) => span
  | _ => none

/-- A call made by the hook to the APM agent. -/
inductive Event where
  | startSpan (ctx : Context) (name spanType : String)
  | spanEnd (id : Nat)
  deriving DecidableEq, Repr

/-- The APM agent as seen by the hook: `apm.StartSpan(ctx, name, spanType)`
returns a span pointer and a context; the answer may depend on the calls made
so far. -/
structure Agent where
  StartSpan : List Event → Context → String → String → Span × Context

/-- Go `error`: `none` is the nil error. -/
abbrev Error := Option String

/-! ## The hook -/

/-- Go `(*goRedisApmHook).BeforeProcess` (hook.go, lines 41-44).  Returns the
derived context, the error, and the log extended by the call to the agent. -/
def BeforeProcess (tbl : Char → Char) (apm : Agent) (ctx : Context) (cmd : Cmder)
    (log : List Event) : (Context × Error) × List Event :=
  let name := getCmdName tbl cmd
  let r := apm.StartSpan log ctx name "db.redis"
  ((withSpan r.2 r.1, none), log ++ [Event.startSpan ctx name "db.redis"])

/-- Go `(*goRedisApmHook).AfterProcess` (hook.go, lines 47-52). -/
def AfterProcess (ctx : Context) (_cmd : Cmder) (log : List Event) : Error × List Event :=
  match spanFromContext ctx with
  | some id => (none, log ++ [Event.spanEnd id])
  | none => (none, log)

/-- Go `(*goRedisApmHook).BeforeProcessPipeline` (hook.go, lines 55-67). -/
def BeforeProcessPipeline (tbl : Char → Char) (apm : Agent) (ctx : Context)
    (cmds : List Cmder) (log : List Event) : (Context × Error) × List Event :=
  let name := pipelineSpanName tbl cmds
  let r := apm.StartSpan log ctx name "db.redis"
  ((withSpan r.2 r.1, none), log ++ [Event.startSpan ctx name "db.redis"])

/-- Go `(*goRedisApmHook).AfterProcessPipeline` (hook.go, lines 70-75). -/
def AfterProcessPipeline (ctx : Context) (_cmds : List Cmder) (log : List Event) :
    Error × List Event :=
  match spanFromContext ctx with
  | some id => (none, log ++ [Event.spanEnd id])
  | none => (none, log)

/-- The span `apm.StartSpan` hands to a before-hook that asks for `name`. -/
def startedSpan (apm : Agent) (log : List Event) (ctx : Context) (name : String) : Span :=
  (apm.StartSpan log ctx name "db.redis").1

/-- The context `apm.StartSpan` hands to a before-hook that asks for `name`. -/
def startedContext (apm : Agent) (log : List Event) (ctx : Context) (name : String) :
    Context :=
  (apm.StartSpan log ctx name "db.redis").2

/-- A sample agent: spans are numbered by the length of the log, and the
returned context records the new span under the agent's own key. -/
def sampleAgent : Agent where
  StartSpan log ctx _ _ :=
    (some log.length, Context.valueCtx ctx (Key.foreign 0) (Any.span (some log.length)))

/-- An agent with tracing switched off: it returns the nil span and the
context it was given. -/
def nilAgent : Agent where
  StartSpan _ ctx _ _ := (none, ctx)

/-- The `End` calls made by `if span != nil { span.End() }` on a span pointer:
one call on the span pointed at, none for the nil pointer. -/
def endCalls : Span → List Event
  | some id => [Event.spanEnd id]
  | none => []

/-! ## Auxiliary lemmas -/

theorem ToUpper_data (tbl : Char → Char) (s : String) :
    (ToUpper tbl s).data = s.data.map (unicodeToUpper tbl) := rfl

theorem ToUpper_eq_empty_iff (tbl : Char → Char) (s : String) :
    ToUpper tbl s = "" ↔ s = "" := by
  constructor
  · intro h
    have h1 : (ToUpper tbl s).data = [] := by rw [h]
    rw [ToUpper_data, List.map_eq_nil_iff] at h1
    exact String.ext h1
  · rintro rfl
    rfl

theorem getCmdName_ne_empty (tbl : Char → Char) (cmd : Cmder) : getCmdName tbl cmd ≠ "" := by
  unfold getCmdName
  by_cases h : ToUpper tbl cmd.Name = ""
  · simp only [h, if_true]; decide
  · simp only [h, if_false]; exact h

theorem cmdNameLoop_succ (tbl : Char → Char) (i : Nat) (cmds : List Cmder) (buf : String) :
    cmdNameLoop tbl (i + 1) cmds buf
      = String.intercalate.go buf ", " (cmds.map (getCmdName tbl)) := by
  induction cmds generalizing i buf with
  | nil => rfl
  | cons cmd rest ih =>
    simp only [cmdNameLoop, List.map_cons, String.intercalate.go]
    rw [if_pos (Nat.succ_ne_zero i)]
    exact ih (i + 1) _

theorem pipelineSpanName_eq_spec (tbl : Char → Char) (cmds : List Cmder) :
    pipelineSpanName tbl cmds = joinedLabelSpec tbl cmds := by
  cases cmds with
  | nil => rfl
  | cons cmd rest =>
    simp only [pipelineSpanName, joinedLabelSpec, cmdNameLoop, List.map_cons,
      String.intercalate]
    rw [if_neg (by simp)]
    rw [cmdNameLoop_succ]
    congr 1

theorem cmdNameLoop_length (tbl : Char → Char) (i : Nat) (cmds : List Cmder) (buf : String) :
    buf.length ≤ (cmdNameLoop tbl i cmds buf).length := by
  induction cmds generalizing i buf with
  | nil => exact Nat.le_refl _
  | cons cmd rest ih =>
    simp only [cmdNameLoop]
    refine Nat.le_trans ?_ (ih (i + 1) _)
    split <;> simp only [String.length_append] <;> omega

theorem intercalate_go_append (a b sep : String) (l : List String) :
    String.intercalate.go (a ++ b) sep l = a ++ String.intercalate.go b sep l := by
  induction l generalizing b with
  | nil => rfl
  | cons x rest ih =>
    simp only [String.intercalate.go]
    rw [String.append_assoc, String.append_assoc, ih, String.append_assoc]

theorem pipelineSpanName_cons_cons (tbl : Char → Char) (cmd next : Cmder) (rest : List Cmder) :
    pipelineSpanName tbl (cmd :: next :: rest)
      = getCmdName tbl cmd ++ ", " ++ pipelineSpanName tbl (next :: rest) := by
  rw [pipelineSpanName_eq_spec, pipelineSpanName_eq_spec]
  simp only [joinedLabelSpec, List.map_cons, String.intercalate, String.intercalate.go]
  rw [intercalate_go_append]

theorem toNat_ofNat_ascii (n : Nat) (h : n < 128) : (Char.ofNat n).toNat = n := by
  have hv : n.isValidChar := Or.inl (by omega)
  unfold Char.ofNat
  rw [dif_pos hv]
  simp only [Char.ofNatAux, Char.toNat, UInt32.toNat]
  show (BitVec.ofNatLt n _).toNat = n
  simp

theorem unicodeToUpper_not_lower (tbl : Char → Char)
    (htbl : ∀ r, 127 < r.toNat → ¬ isAsciiLower (tbl r)) (r : Char) :
    ¬ isAsciiLower (unicodeToUpper tbl r) := by
  unfold unicodeToUpper
  split
  · split
    · rename_i h1 h2
      intro h
      unfold isAsciiLower at h
      have hv : (Char.ofNat (r.toNat - 32)).toNat = r.toNat - 32 :=
        toNat_ofNat_ascii _ (by omega)
      omega
    · rename_i h1 h2
      exact h2
  · rename_i h1
    exact htbl r (by omega)

theorem ToUpper_ne_placeholder (tbl : Char → Char)
    (htbl : ∀ r, 127 < r.toNat → ¬ isAsciiLower (tbl r)) (s : String) :
    ToUpper tbl s ≠ "(empty command)" := by
  intro h
  have hd : s.data.map (unicodeToUpper tbl) = "(empty command)".data := by
    rw [← ToUpper_data, h]
  have hmem : 'e' ∈ s.data.map (unicodeToUpper tbl) := by
    rw [hd]; decide
  obtain ⟨r, -, hr⟩ := List.mem_map.1 hmem
  have := unicodeToUpper_not_lower tbl htbl r
  rw [hr] at this
  exact this ⟨by decide, by decide⟩

theorem spanFromContext_withSpan (ctx : Context) (span : Span) :
    spanFromContext (withSpan ctx span) = span := by
  simp [spanFromContext, withSpan, Context.Value]

theorem Value_withSpan_of_ne (ctx : Context) (span : Span) (k : Key) (hk : k ≠ key) :
    (withSpan ctx span).Value k = ctx.Value k := by
  simp only [withSpan, Context.Value]
  rw [if_neg (fun h => hk h.symm)]

theorem AfterProcess_eq (ctx : Context) (cmd : Cmder) (log : List Event) :
    AfterProcess ctx cmd log = (none, log ++ endCalls (spanFromContext ctx)) := by
  unfold AfterProcess
  cases spanFromContext ctx <;> simp [endCalls]

theorem AfterProcessPipeline_eq (ctx : Context) (cmds : List Cmder) (log : List Event) :
    AfterProcessPipeline ctx cmds log = (none, log ++ endCalls (spanFromContext ctx)) := by
  unfold AfterProcessPipeline
  cases spanFromContext ctx <;> simp [endCalls]

theorem spanFromContext_eq_none_iff (ctx : Context) :
    spanFromContext ctx = none ↔
      (ctx.Value key = none ∨ ctx.Value key = some (Any.span none)
        ∨ ∃ n, ctx.Value key = some (Any.foreign n)) := by
  unfold spanFromContext
  rcases h : ctx.Value key with _ | ⟨s⟩ | n
  · simp
  · simp
  · simp

/-! ## The claims -/

/-- C1: for every list of commands, the span name `BeforeProcessPipeline` passes
to the agent is the canonical labels of the commands joined with `", "` in the
original order: it is the empty string for the empty list, the single label for
a one-element list, and otherwise the first label, the separator, and the name
for the remaining commands (so no separator leads or trails); the commands
named `get`, `SET` and the empty name give `GET, SET, (empty command)`. -/
theorem BeforeProcessPipeline_span_name_joined (tbl : Char → Char) (apm : Agent)
    (ctx : Context) (cmds : List Cmder) (log : List Event) :
    (BeforeProcessPipeline tbl apm ctx cmds log).2
        = log ++ [Event.startSpan ctx (joinedLabelSpec tbl cmds) "db.redis"]
      ∧ pipelineSpanName tbl cmds = ", ".intercalate (cmds.map (getCmdName tbl))
      ∧ pipelineSpanName tbl [] = ""
      ∧ (∀ cmd, pipelineSpanName tbl [cmd] = getCmdName tbl cmd)
      ∧ (∀ cmd next rest, pipelineSpanName tbl (cmd :: next :: rest)
          = getCmdName tbl cmd ++ ", " ++ pipelineSpanName tbl (next :: rest))
      ∧ pipelineSpanName tbl [⟨"get"⟩, ⟨"SET"⟩, ⟨""⟩] = "GET, SET, (empty command)" := by
  refine ⟨?_, pipelineSpanName_eq_spec tbl cmds, rfl, fun cmd => ?_,
    pipelineSpanName_cons_cons tbl, rfl⟩
  · simp only [BeforeProcessPipeline, pipelineSpanName_eq_spec]
  · rw [pipelineSpanName_eq_spec]; rfl

/-- C2: for a command whose raw name is non-empty, `getCmdName` returns exactly
`strings.ToUpper` of the name, and (as the Unicode case table maps no code
point above ASCII to an ASCII lower-case letter) that result is not the
placeholder `(empty command)`. -/
theorem getCmdName_of_nonempty_name (tbl : Char → Char) (cmd : Cmder)
    (hname : cmd.Name ≠ "") :
    getCmdName tbl cmd = ToUpper tbl cmd.Name
      ∧ ((∀ r, 127 < r.toNat → ¬ isAsciiLower (tbl r))
          → getCmdName tbl cmd ≠ "(empty command)") := by
  have hne : ToUpper tbl cmd.Name ≠ "" := fun h => hname ((ToUpper_eq_empty_iff tbl _).1 h)
  have heq : getCmdName tbl cmd = ToUpper tbl cmd.Name := by
    unfold getCmdName
    simp only [hne, if_false]
  exact ⟨heq, fun htbl => heq ▸ ToUpper_ne_placeholder tbl htbl cmd.Name⟩

/-- Witness for C2 at the command named `get`, with the identity as case table
above ASCII. -/
theorem getCmdName_of_nonempty_name_witness :
    (⟨"get"⟩ : Cmder).Name ≠ "" ∧ getCmdName id ⟨"get"⟩ = "GET"
      ∧ getCmdName id ⟨"get"⟩ ≠ "(empty command)" :=
  ⟨by decide, (getCmdName_of_nonempty_name id ⟨"get"⟩ (by decide)).1,
    (getCmdName_of_nonempty_name id ⟨"get"⟩ (by decide)).2
      (fun r hr h => absurd h.2 (by simp only [id]; omega))⟩

/-- C3: for a command whose raw name is the empty string, `getCmdName` returns
the fixed placeholder `(empty command)`. -/
theorem getCmdName_of_empty_name (tbl : Char → Char) (cmd : Cmder)
    (hname : cmd.Name = "") : getCmdName tbl cmd = "(empty command)" := by
  unfold getCmdName
  rw [hname]
  rfl

/-- Witness for C3 at the command with the empty name. -/
theorem getCmdName_of_empty_name_witness :
    (⟨""⟩ : Cmder).Name = "" ∧ getCmdName id ⟨""⟩ = "(empty command)" :=
  ⟨rfl, getCmdName_of_empty_name id ⟨""⟩ rfl⟩

/-- C9: `getCmdName` never returns the empty string, and the span name built by
`BeforeProcessPipeline` is empty exactly when the command list is empty; the
empty batch starts a span whose name is the empty string. -/
theorem pipeline_span_name_empty_iff (tbl : Char → Char) (apm : Agent) (ctx : Context)
    (cmds : List Cmder) (log : List Event) :
    (∀ cmd, getCmdName tbl cmd ≠ "")
      ∧ (pipelineSpanName tbl cmds = "" ↔ cmds = [])
      ∧ (BeforeProcessPipeline tbl apm ctx cmds log).2
          = log ++ [Event.startSpan ctx (pipelineSpanName tbl cmds) "db.redis"]
      ∧ (BeforeProcessPipeline tbl apm ctx [] log).2
          = log ++ [Event.startSpan ctx "" "db.redis"] := by
  refine ⟨getCmdName_ne_empty tbl, ⟨fun h => ?_, fun h => by rw [h]; rfl⟩, rfl, rfl⟩
  cases cmds with
  | nil => rfl
  | cons cmd rest =>
    exfalso
    have hlen := cmdNameLoop_length tbl 1 rest ("" ++ getCmdName tbl cmd)
    have hloop : pipelineSpanName tbl (cmd :: rest)
        = cmdNameLoop tbl 1 rest ("" ++ getCmdName tbl cmd) := by
      simp only [pipelineSpanName, cmdNameLoop]
      rfl
    rw [← hloop, h] at hlen
    have hpos : 0 < (getCmdName tbl cmd).length := by
      rcases hd : (getCmdName tbl cmd) with ⟨l⟩
      cases l with
      | nil => exact absurd hd (getCmdName_ne_empty tbl cmd)
      | cons c cs => simp [String.length]
    simp only [String.length_append] at hlen
    have h0 : ("" : String).length = 0 := rfl
    omega

/-- C4: when the agent hands a non-nil span to `BeforeProcess` (respectively
`BeforeProcessPipeline`), the matching after-hook run on the returned context
reports no error and makes exactly one call to the agent: `End` on that span. -/
theorem after_hook_ends_span_of_before_hook (tbl : Char → Char) (apm : Agent)
    (ctx : Context) (cmd : Cmder) (cmds : List Cmder) (log log' : List Event) :
    (∀ id, startedSpan apm log ctx (getCmdName tbl cmd) = some id →
        AfterProcess (BeforeProcess tbl apm ctx cmd log).1.1 cmd log'
          = (none, log' ++ [Event.spanEnd id]))
      ∧ (∀ id, startedSpan apm log ctx (pipelineSpanName tbl cmds) = some id →
        AfterProcessPipeline (BeforeProcessPipeline tbl apm ctx cmds log).1.1 cmds log'
          = (none, log' ++ [Event.spanEnd id])) := by
  constructor
  · intro id h
    rw [AfterProcess_eq]
    simp only [BeforeProcess, spanFromContext_withSpan]
    rw [show (apm.StartSpan log ctx (getCmdName tbl cmd) "db.redis").1 = some id from h]
    rfl
  · intro id h
    rw [AfterProcessPipeline_eq]
    simp only [BeforeProcessPipeline, spanFromContext_withSpan]
    rw [show (apm.StartSpan log ctx (pipelineSpanName tbl cmds) "db.redis").1 = some id from h]
    rfl

/-- Witness for C4 with the sample agent, which hands out span `0` on an empty
log: the after-hooks end span `0` and nothing else. -/
theorem after_hook_ends_span_of_before_hook_witness :
    startedSpan sampleAgent [] Context.background (getCmdName id ⟨"get"⟩) = some 0
      ∧ AfterProcess (BeforeProcess id sampleAgent Context.background ⟨"get"⟩ []).1.1
          ⟨"get"⟩ [] = (none, [Event.spanEnd 0])
      ∧ AfterProcessPipeline
          (BeforeProcessPipeline id sampleAgent Context.background [⟨"get"⟩, ⟨"set"⟩] []).1.1
          [⟨"get"⟩, ⟨"set"⟩] [] = (none, [Event.spanEnd 0]) :=
  ⟨rfl,
    (after_hook_ends_span_of_before_hook id sampleAgent Context.background ⟨"get"⟩
      [⟨"get"⟩, ⟨"set"⟩] [] []).1 0 rfl,
    (after_hook_ends_span_of_before_hook id sampleAgent Context.background ⟨"get"⟩
      [⟨"get"⟩, ⟨"set"⟩] [] []).2 0 rfl⟩

/-- C5: the span lookup yields none exactly for a context with no value under
the hook's key, with a nil span under it, or with a value of another type under
it; a nil span attached by `withSpan` is such a context; and on every context
whose lookup yields none `AfterProcess` and `AfterProcessPipeline` return no
error and leave the log of agent calls unchanged (no call to `End`). -/
theorem after_hook_noop_without_span (ctx : Context) (cmd : Cmder) (cmds : List Cmder)
    (log : List Event) :
    (spanFromContext ctx = none ↔
        (ctx.Value key = none ∨ ctx.Value key = some (Any.span none)
          ∨ ∃ n, ctx.Value key = some (Any.foreign n)))
      ∧ spanFromContext (withSpan ctx none) = none
      ∧ (spanFromContext ctx = none →
          AfterProcess ctx cmd log = (none, log)
            ∧ AfterProcessPipeline ctx cmds log = (none, log)) := by
  refine ⟨spanFromContext_eq_none_iff ctx, spanFromContext_withSpan ctx none, fun h => ?_⟩
  rw [AfterProcess_eq, AfterProcessPipeline_eq, h]
  simp [endCalls]

/-- Witness for C5 on three contexts: one that never had a span attached, one
the before-hook built from a nil span, and one holding a value of another type
under the hook's key. -/
theorem after_hook_noop_without_span_witness :
    (spanFromContext (Context.valueCtx Context.background (Key.foreign 3) (Any.foreign 5))
        = none
      ∧ AfterProcess (Context.valueCtx Context.background (Key.foreign 3) (Any.foreign 5))
          ⟨"get"⟩ [Event.spanEnd 7] = (none, [Event.spanEnd 7]))
      ∧ (spanFromContext (BeforeProcess id nilAgent Context.background ⟨"get"⟩ []).1.1 = none
        ∧ AfterProcess (BeforeProcess id nilAgent Context.background ⟨"get"⟩ []).1.1
            ⟨"get"⟩ [] = (none, []))
      ∧ (spanFromContext (Context.valueCtx Context.background key (Any.foreign 1)) = none
        ∧ AfterProcessPipeline (Context.valueCtx Context.background key (Any.foreign 1))
            [⟨"get"⟩] [] = (none, [])) :=
  ⟨⟨rfl, ((after_hook_noop_without_span
        (Context.valueCtx Context.background (Key.foreign 3) (Any.foreign 5))
        ⟨"get"⟩ [] [Event.spanEnd 7]).2.2 rfl).1⟩,
    ⟨rfl, ((after_hook_noop_without_span
        (BeforeProcess id nilAgent Context.background ⟨"get"⟩ []).1.1
        ⟨"get"⟩ [] []).2.2 rfl).1⟩,
    ⟨rfl, ((after_hook_noop_without_span
        (Context.valueCtx Context.background key (Any.foreign 1))
        ⟨"get"⟩ [⟨"get"⟩] []).2.2 rfl).2⟩⟩

/-- C6: for every context, command, command list, log and agent (whatever span,
nil or not, it returns), each of the four hook callbacks returns the nil
error. -/
theorem hooks_return_nil_error (tbl : Char → Char) (apm : Agent) (ctx : Context)
    (cmd : Cmder) (cmds : List Cmder) (log : List Event) :
    (BeforeProcess tbl apm ctx cmd log).1.2 = none
      ∧ (AfterProcess ctx cmd log).1 = none
      ∧ (BeforeProcessPipeline tbl apm ctx cmds log).1.2 = none
      ∧ (AfterProcessPipeline ctx cmds log).1 = none := by
  refine ⟨rfl, ?_, rfl, ?_⟩
  · rw [AfterProcess_eq]
  · rw [AfterProcessPipeline_eq]

/-- C7: `BeforeProcess` makes exactly one call to the agent, a start-span call
with name `getCmdName cmd` and category `db.redis` on the context it was given,
and returns the agent's context extended with the agent's span, so that
`spanFromContext` of the returned context is that span. -/
theorem BeforeProcess_starts_one_span (tbl : Char → Char) (apm : Agent) (ctx : Context)
    (cmd : Cmder) (log : List Event) :
    (BeforeProcess tbl apm ctx cmd log).2
        = log ++ [Event.startSpan ctx (getCmdName tbl cmd) "db.redis"]
      ∧ (BeforeProcess tbl apm ctx cmd log).1.1
        = withSpan (startedContext apm log ctx (getCmdName tbl cmd))
            (startedSpan apm log ctx (getCmdName tbl cmd))
      ∧ spanFromContext (BeforeProcess tbl apm ctx cmd log).1.1
        = startedSpan apm log ctx (getCmdName tbl cmd) := by
  refine ⟨rfl, rfl, ?_⟩
  simp only [BeforeProcess, spanFromContext_withSpan, startedSpan]

/-- C8: lookup on a twice-derived context returns the span attached last, the
once-derived context still yields its own span, and so the after-hooks end the
span of the context they are run on.  With nested before-hooks (the inner one
started from the context and log the outer one produced) the after-hook on the
inner context makes the `End` call for the span handed to the inner before-hook
and the after-hook on the outer context the one for the span handed to the
outer before-hook; this holds for the single-command and the pipeline hooks. -/
theorem nested_contexts_end_own_span (tbl : Char → Char) (apm : Agent) (ctx : Context)
    (s1 s2 : Span) (cmd cmd' : Cmder) (cmds cmds' : List Cmder) (log log' : List Event) :
    spanFromContext (withSpan (withSpan ctx s1) s2) = s2
      ∧ spanFromContext (withSpan ctx s1) = s1
      ∧ AfterProcess (withSpan (withSpan ctx s1) s2) cmd' log' = (none, log' ++ endCalls s2)
      ∧ AfterProcess (withSpan ctx s1) cmd log' = (none, log' ++ endCalls s1)
      ∧ (AfterProcess
            (BeforeProcess tbl apm (BeforeProcess tbl apm ctx cmd log).1.1 cmd'
              (BeforeProcess tbl apm ctx cmd log).2).1.1 cmd' log'
          = (none, log' ++ endCalls
              (startedSpan apm (BeforeProcess tbl apm ctx cmd log).2
                (BeforeProcess tbl apm ctx cmd log).1.1 (getCmdName tbl cmd')))
        ∧ AfterProcess (BeforeProcess tbl apm ctx cmd log).1.1 cmd log'
          = (none, log' ++ endCalls (startedSpan apm log ctx (getCmdName tbl cmd))))
      ∧ (AfterProcessPipeline
            (BeforeProcessPipeline tbl apm (BeforeProcessPipeline tbl apm ctx cmds log).1.1
              cmds' (BeforeProcessPipeline tbl apm ctx cmds log).2).1.1 cmds' log'
          = (none, log' ++ endCalls
              (startedSpan apm (BeforeProcessPipeline tbl apm ctx cmds log).2
                (BeforeProcessPipeline tbl apm ctx cmds log).1.1 (pipelineSpanName tbl cmds')))
        ∧ AfterProcessPipeline (BeforeProcessPipeline tbl apm ctx cmds log).1.1 cmds log'
          = (none, log' ++ endCalls
              (startedSpan apm log ctx (pipelineSpanName tbl cmds)))) := by
  refine ⟨spanFromContext_withSpan _ s2, spanFromContext_withSpan ctx s1, ?_, ?_,
    ⟨?_, ?_⟩, ⟨?_, ?_⟩⟩
  · rw [AfterProcess_eq, spanFromContext_withSpan]
  · rw [AfterProcess_eq, spanFromContext_withSpan]
  · rw [AfterProcess_eq]
    simp only [BeforeProcess, spanFromContext_withSpan, startedSpan]
  · rw [AfterProcess_eq]
    simp only [BeforeProcess, spanFromContext_withSpan, startedSpan]
  · rw [AfterProcessPipeline_eq]
    simp only [BeforeProcessPipeline, spanFromContext_withSpan, startedSpan]
  · rw [AfterProcessPipeline_eq]
    simp only [BeforeProcessPipeline, spanFromContext_withSpan, startedSpan]

/-- C10: `withSpan` changes only the association under the hook's key: every
other key looks up the same in `withSpan ctx s` as in `ctx`; hence the contexts
returned by `BeforeProcess` and `BeforeProcessPipeline` agree, on every other
key, with the context the agent returned from the start-span call. -/
theorem withSpan_keeps_other_keys (tbl : Char → Char) (apm : Agent) (ctx : Context)
    (s : Span) (cmd : Cmder) (cmds : List Cmder) (log : List Event) (k : Key)
    (hk : k ≠ key) :
    (withSpan ctx s).Value k = ctx.Value k
      ∧ (BeforeProcess tbl apm ctx cmd log).1.1.Value k
        = (startedContext apm log ctx (getCmdName tbl cmd)).Value k
      ∧ (BeforeProcessPipeline tbl apm ctx cmds log).1.1.Value k
        = (startedContext apm log ctx (pipelineSpanName tbl cmds)).Value k :=
  ⟨Value_withSpan_of_ne ctx s k hk, Value_withSpan_of_ne _ _ k hk,
    Value_withSpan_of_ne _ _ k hk⟩

/-- Witness for C10 with the sample agent, which records its span under its own
key `Key.foreign 0`: that entry is still visible in the context the before-hook
returns. -/
theorem withSpan_keeps_other_keys_witness :
    Key.foreign 0 ≠ key
      ∧ (withSpan Context.background (some 4)).Value (Key.foreign 0) = none
      ∧ (BeforeProcess id sampleAgent Context.background ⟨"get"⟩ []).1.1.Value (Key.foreign 0)
        = some (Any.span (some 0))
      ∧ (BeforeProcessPipeline id sampleAgent Context.background [⟨"get"⟩] []).1.1.Value
          (Key.foreign 0) = some (Any.span (some 0)) :=
  ⟨by decide,
    withSpan_keeps_other_keys id sampleAgent Context.background (some 4) ⟨"get"⟩
      [⟨"get"⟩] [] (Key.foreign 0) (by decide)⟩

end apmgoredisv8
